import Mathlib

/-!
# Verification of the poetry_translator retrieval pipeline

Shallow embedding of the core of `src/rag_index.py` and
`src/simple_translator.py`: the chunker (`split_text`), the structured
document normalizer (`process_json_file`), the indexing loop
(`index_file`), the index store (`save_index` / `load_index`), the
retriever (`find_poems_by_translator`) and the prompt composer
(`translate`'s prompt construction).

Python strings are modelled as `List Char`; the external embedding
service is a parameter (a function from text to a vector, empty on
failure); the `while` loop of `split_text` is given explicit fuel, with
`none` meaning the fuel was exhausted before the loop finished.
-/

set_option autoImplicit false

namespace PT

/-- Python strings are modelled as lists of characters. -/
abbrev Str := List Char

/-- Python `s.strip()`: remove leading and trailing whitespace. -/
def pyStrip (s : Str) : Str :=
  ((s.dropWhile Char.isWhitespace).reverse.dropWhile Char.isWhitespace).reverse

/-- Python `s.rfind(c)`: index of the last occurrence of `c` in `s`, `-1` if absent. -/
def pyRfind (s : Str) (c : Char) : Int :=
  match s with
  | [] => -1
  | a :: rest =>
      let r := pyRfind rest c
      if 0 ≤ r then r + 1
      else if a = c then 0 else -1

/-- Resolve one endpoint of a Python slice `s[a:b]` to an absolute
position in `[0, len]`: negative values count from the end (clamped at
0), values beyond the length are clamped to the length. -/
def pySliceIdx (len : Nat) (i : Int) : Nat :=
  if i < 0 then ((len : Int) + i).toNat else min i.toNat len

/-- Python slice `s[a:b]`. -/
def pySlice (s : Str) (a b : Int) : Str :=
  (s.take (pySliceIdx s.length b)).drop (pySliceIdx s.length a)

/-! ## Chunker: `split_text` (src/rag_index.py, lines 37-64)

One loop iteration computes `end = start + chunk_size`,
`chunk = text[start:end]`, optionally shortens the chunk at the last
sentence mark (`.`, `!`, `?`, newline) when that mark lies strictly past
the midpoint of the window (`last_sentence > chunk_size * 0.5`, which for
integers is `2 * last_sentence > chunk_size`), emits `chunk.strip()` and
advances the cursor to `end - overlap`. -/

/-- One iteration of the `split_text` loop body: from cursor `start`,
the emitted chunk (before `strip`) and the updated `end` cursor. -/
def splitStep (text : Str) (chunk_size : Int) (start : Int) : Str × Int :=
  let endIdx := start + chunk_size
  let chunk := pySlice text start endIdx
  if endIdx < (text.length : Int) then
    let last_sentence :=
      max (max (pyRfind chunk '.') (pyRfind chunk '!'))
          (max (pyRfind chunk '?') (pyRfind chunk '\n'))
    if 2 * last_sentence > chunk_size then
      (pySlice chunk 0 (last_sentence + 1), start + last_sentence + 1)
    else (chunk, endIdx)
  else (chunk, endIdx)

/-- The cursor value after one iteration, `start = end - overlap` (line 59). -/
def splitNextStart (text : Str) (chunk_size overlap : Int) (start : Int) : Int :=
  (splitStep text chunk_size start).2 - overlap

/-- The `while` loop of `split_text`, with explicit fuel; `none` means
the fuel ran out before the loop finished. -/
def splitLoop (text : Str) (chunk_size overlap : Int) :
    Nat → Int → List Str → Option (List Str)
  | 0, start, acc =>
      if start < (text.length : Int) then none else some acc
  | fuel + 1, start, acc =>
      if start < (text.length : Int) then
        let p := splitStep text chunk_size start
        let acc' := acc ++ [pyStrip p.1]
        let start' := p.2 - overlap
        if (text.length : Int) ≤ start' then some acc'
        else splitLoop text chunk_size overlap fuel start' acc'
      else some acc

/-- `split_text(text, chunk_size, overlap)`, run with fuel `length + 1`:
enough fuel whenever every iteration advances the cursor by at least one. -/
def split_text (text : Str) (chunk_size overlap : Int) : Option (List Str) :=
  splitLoop text chunk_size overlap (text.length + 1) 0 []

/-- Whenever `2 * overlap ≤ chunk_size`, every loop iteration advances
the cursor by at least one position. -/
theorem splitNextStart_progress (text : Str) (cs ov start : Int)
    (hcs : 0 < cs) (h2 : 2 * ov ≤ cs) :
    start + 1 ≤ splitNextStart text cs ov start := by
  unfold splitNextStart splitStep
  dsimp only
  split
  · split
    · next h => omega
    · omega
  · omega

/-- With per-iteration progress of at least one, fuel `length - start`
suffices for the loop to finish. -/
theorem splitLoop_some (text : Str) (cs ov : Int)
    (hcs : 0 < cs) (h2 : 2 * ov ≤ cs) :
    ∀ (fuel : Nat) (start : Int) (acc : List Str),
      (text.length : Int) ≤ start + (fuel : Int) →
      ∃ r, splitLoop text cs ov fuel start acc = some r := by
  intro fuel
  induction fuel with
  | zero =>
      intro start acc h
      simp only [splitLoop]
      rw [if_neg (by push_cast at h ⊢; omega)]
      exact ⟨acc, rfl⟩
  | succ n ih =>
      intro start acc h
      simp only [splitLoop]
      by_cases hlt : start < (text.length : Int)
      · rw [if_pos hlt]
        by_cases hend : (text.length : Int) ≤ (splitStep text cs start).2 - ov
        · rw [if_pos hend]
          exact ⟨_, rfl⟩
        · rw [if_neg hend]
          apply ih
          have hp := splitNextStart_progress text cs ov start hcs h2
          unfold splitNextStart at hp
          push_cast at h ⊢
          omega
      · rw [if_neg hlt]
        exact ⟨acc, rfl⟩

/-- `pySlice s 0 b` is all of `s` when `b` reaches past the end. -/
theorem pySlice_zero_of_le (s : Str) (b : Int) (hb : (s.length : Int) ≤ b) :
    pySlice s 0 b = s := by
  unfold pySlice pySliceIdx
  rw [if_neg (by omega), if_neg (by omega)]
  have h1 : min (Int.toNat 0) s.length = 0 := by omega
  have h2 : min b.toNat s.length = s.length := by omega
  rw [h1, h2, List.take_length, List.drop_zero]

/-- C1 (amended): for every text and every configuration with
`0 < chunk_size`, `0 ≤ overlap` and `2 * overlap ≤ chunk_size`, every
iteration of the `split_text` loop advances the cursor by at least one
position, and the loop terminates (fuel `length + 1` suffices).  The
claim's weaker bound `overlap < chunk_size` does not guarantee progress:
the implementation has no guard against a non-advancing cursor (see the
counterexample). -/
theorem split_text_terminates_of_small_overlap (text : Str) (cs ov : Int)
    (hcs : 0 < cs) (_hov : 0 ≤ ov) (h2 : 2 * ov ≤ cs) :
    (∀ start : Int, start + 1 ≤ splitNextStart text cs ov start) ∧
    ∃ r, split_text text cs ov = some r := by
  constructor
  · intro start
    exact splitNextStart_progress text cs ov start hcs h2
  · exact splitLoop_some text cs ov hcs h2 _ 0 [] (by push_cast; omega)

/-- Witness for the amended C1 at `chunk_size = 3`, `overlap = 1`. -/
theorem split_text_terminates_of_small_overlap_witness :
    (∀ start : Int, start + 1 ≤ splitNextStart "ab".toList 3 1 start) ∧
    ∃ r, split_text "ab".toList 3 1 = some r :=
  split_text_terminates_of_small_overlap "ab".toList 3 1 (by norm_num)
    (by norm_num) (by norm_num)

/-- C1 counterexample: `chunk_size = 10`, `overlap = 9` satisfies the
claim's precondition `0 ≤ overlap < chunk_size`, yet on a text with a
sentence mark just past the window midpoint the cursor makes zero
progress on the very first iteration, and the loop does not finish even
with fuel `length + 1` (it never finishes: the cursor is stuck at 0). -/
theorem split_text_no_progress_counterexample :
    (0 : Int) ≤ 9 ∧ (9 : Int) < 10 ∧
    splitNextStart "aaaaaaaa.aaaaaaaaaaaaaaa".toList 10 9 0 = 0 ∧
    split_text "aaaaaaaa.aaaaaaaaaaaaaaa".toList 10 9 = none :=
  ⟨by norm_num, by norm_num, by decide, by decide⟩

/-- C2 (amended): for every non-empty text with
`length text + overlap ≤ chunk_size`, `split_text` returns exactly one
chunk, the whole text with whitespace trimmed.  The claim's weaker bound
`length text < chunk_size` is not enough: the loop can run a second
iteration when `chunk_size - overlap < length text` (see the
counterexample). -/
theorem split_text_single_chunk (text : Str) (cs ov : Int)
    (hlen : 0 < text.length) (hov : 0 ≤ ov)
    (hcs : (text.length : Int) + ov ≤ cs) :
    split_text text cs ov = some [pyStrip text] := by
  have hstep : splitStep text cs 0 = (text, 0 + cs) := by
    unfold splitStep
    dsimp only
    rw [if_neg (by omega)]
    rw [pySlice_zero_of_le text (0 + cs) (by omega)]
  simp only [split_text, splitLoop]
  rw [if_pos (by exact_mod_cast hlen)]
  simp only [hstep]
  rw [if_pos (by omega)]
  simp

/-- Witness for the amended C2: a two-character text with
`chunk_size = 3`, `overlap = 0` yields the single trimmed chunk. -/
theorem split_text_single_chunk_witness :
    split_text "ab".toList 3 0 = some [pyStrip "ab".toList] :=
  split_text_single_chunk "ab".toList 3 0 (by decide) (by norm_num) (by decide)

/-- C2 counterexample: the text `"ab"` has length 2, strictly less than
`chunk_size = 3`, and `overlap = 2` satisfies `0 ≤ overlap < chunk_size`,
yet `split_text` returns two chunks, not one. -/
theorem split_text_short_text_two_chunks :
    "ab".toList.length < 3 ∧ (0 : Int) ≤ 2 ∧ (2 : Int) < 3 ∧
    split_text "ab".toList 3 2 = some [['a', 'b'], ['b']] :=
  ⟨by decide, by norm_num, by norm_num, by decide⟩

/-! ## Python dictionaries

Metadata dictionaries (and the file store) are modelled as association
lists with Python `dict` semantics: writing to an existing key updates
it in place, writing to a fresh key appends it. -/

/-- Python `d[k]` as an option. -/
def dictLookup {V : Type} (m : List (String × V)) (k : String) : Option V :=
  match m with
  | [] => none
  | p :: rest => if p.1 = k then some p.2 else dictLookup rest k

/-- Python `d[k] = v`: update in place if present, append otherwise. -/
def dictInsert {V : Type} (m : List (String × V)) (k : String) (v : V) :
    List (String × V) :=
  if m.any (fun p => p.1 == k) then
    m.map (fun p => if p.1 = k then (k, v) else p)
  else m ++ [(k, v)]

/-- Python `{**base, **upd}` (given `base` already has distinct keys):
fold the updates into the base dictionary. -/
def dictMerge {V : Type} (base upd : List (String × V)) : List (String × V) :=
  upd.foldl (fun acc p => dictInsert acc p.1 p.2) base

theorem dictLookup_insert_self {V : Type} (m : List (String × V)) (k : String) (v : V) :
    dictLookup (dictInsert m k v) k = some v := by
  unfold dictInsert
  split
  · next hany =>
      induction m with
      | nil => simp at hany
      | cons p rest ih =>
          by_cases hp : p.1 = k
          · simp [dictLookup, hp]
          · simp only [List.any_cons, Bool.or_eq_true, beq_iff_eq] at hany
            rcases hany with h | h
            · exact absurd h hp
            · simpa [dictLookup, hp] using ih h
  · next hany =>
      induction m with
      | nil => simp [dictLookup]
      | cons p rest ih =>
          simp only [List.any_cons, Bool.or_eq_true, beq_iff_eq] at hany
          push_neg at hany
          simpa [dictLookup, hany.1] using ih (by simpa using hany.2)

theorem dictLookup_map_update_ne {V : Type} (m : List (String × V)) (k' k : String) (v : V)
    (hne : k' ≠ k) :
    dictLookup (m.map (fun p => if p.1 = k' then (k', v) else p)) k = dictLookup m k := by
  induction m with
  | nil => rfl
  | cons p rest ih =>
      by_cases hp : p.1 = k'
      · simp [dictLookup, hp, hne, Ne.symm hne, ih]
      · simp [dictLookup, hp, ih]

theorem dictLookup_append_single_ne {V : Type} (m : List (String × V)) (k' k : String) (v : V)
    (hne : k' ≠ k) :
    dictLookup (m ++ [(k', v)]) k = dictLookup m k := by
  induction m with
  | nil => simp [dictLookup, hne]
  | cons p rest ih => by_cases hp : p.1 = k <;> simp [dictLookup, hp, ih]

theorem dictLookup_insert_ne {V : Type} (m : List (String × V)) (k' k : String) (v : V)
    (hne : k' ≠ k) :
    dictLookup (dictInsert m k' v) k = dictLookup m k := by
  unfold dictInsert
  split
  · exact dictLookup_map_update_ne m k' k v hne
  · exact dictLookup_append_single_ne m k' k v hne

theorem dictLookup_merge_of_not_key {V : Type} (base upd : List (String × V)) (k : String)
    (h : ∀ p ∈ upd, p.1 ≠ k) :
    dictLookup (dictMerge base upd) k = dictLookup base k := by
  induction upd generalizing base with
  | nil => rfl
  | cons p rest ih =>
      have := ih (dictInsert base p.1 p.2) (fun q hq => h q (List.mem_cons_of_mem _ hq))
      unfold dictMerge at this ⊢
      rw [List.foldl_cons, this,
        dictLookup_insert_ne base p.1 k p.2 (h p (List.mem_cons_self _ _))]

theorem dictLookup_merge_isSome {V : Type} (base upd : List (String × V)) (k : String)
    (h : (dictLookup base k).isSome) :
    (dictLookup (dictMerge base upd) k).isSome := by
  induction upd generalizing base with
  | nil => exact h
  | cons p rest ih =>
      unfold dictMerge
      rw [List.foldl_cons]
      apply ih
      by_cases hp : p.1 = k
      · rw [hp, dictLookup_insert_self]; rfl
      · rwa [dictLookup_insert_ne base p.1 k p.2 hp]

/-! ## ChunkRecord and the indexing loop (src/rag_index.py, lines 118-162)

`index_file` reads a file, splits it into chunks and then runs the loop
of lines 138-162: skip chunks that are empty after `strip`, ask the
embedding service, skip chunks whose embedding comes back empty, and
attach metadata `{"file": file_path, "chunk_index": i, **(metadata or {})}`.
File reading and the HTTP call are external; the loop is modelled from
the chunk list on, with the embedding client as a function parameter
(returning `[]` on failure, as `get_embedding` does).  Embedding vectors
are opaque here, so their numeric contents are modelled as integers. -/

/-- A metadata value: a string or an integer. -/
inductive MetaVal where
  | str (s : String)
  | nat (n : Nat)
deriving DecidableEq

/-- One indexed chunk: `{"text": ..., "embedding": ..., "metadata": ...}`. -/
structure ChunkRecord where
  text : Str
  embedding : List Int
  metadata : List (String × MetaVal)
deriving DecidableEq

/-- The metadata dictionary literal of line 157:
`{"file": file_path, "chunk_index": i, **(metadata or {})}`. -/
def mkChunkMetadata (file_path : String) (i : Nat)
    (extra : List (String × MetaVal)) : List (String × MetaVal) :=
  dictMerge [("file", MetaVal.str file_path), ("chunk_index", MetaVal.nat i)] extra

/-- The `for i, chunk in enumerate(chunks)` loop of lines 140-159,
carrying the running enumeration index. -/
def indexChunksAux (emb : Str → List Int) (file_path : String)
    (extra : List (String × MetaVal)) : Nat → List Str → List ChunkRecord
  | _, [] => []
  | i, chunk :: rest =>
      if pyStrip chunk = [] then indexChunksAux emb file_path extra (i + 1) rest
      else
        let embedding := emb chunk
        if embedding = [] then indexChunksAux emb file_path extra (i + 1) rest
        else { text := chunk, embedding := embedding,
               metadata := mkChunkMetadata file_path i extra } ::
             indexChunksAux emb file_path extra (i + 1) rest

/-- `index_file` from the chunk list on (lines 138-162). -/
def index_file_chunks (emb : Str → List Int) (file_path : String)
    (extra : List (String × MetaVal)) (chunks : List Str) : List ChunkRecord :=
  indexChunksAux emb file_path extra 0 chunks

/-- Every record produced by the indexing loop comes from a chunk at
some raw position `k`, is non-empty after trimming, has the non-empty
embedding the client returned for it, and carries the merged metadata
for position `i + k`. -/
theorem mem_indexChunksAux (emb : Str → List Int) (fp : String)
    (extra : List (String × MetaVal)) :
    ∀ (chunks : List Str) (i : Nat) (r : ChunkRecord),
      r ∈ indexChunksAux emb fp extra i chunks →
      ∃ k, chunks[k]? = some r.text ∧
        r.embedding = emb r.text ∧ pyStrip r.text ≠ [] ∧ emb r.text ≠ [] ∧
        r.metadata = mkChunkMetadata fp (i + k) extra := by
  intro chunks
  induction chunks with
  | nil =>
      intro i r hr
      simp [indexChunksAux] at hr
  | cons c rest ih =>
      intro i r hr
      unfold indexChunksAux at hr
      by_cases h1 : pyStrip c = []
      · rw [if_pos h1] at hr
        obtain ⟨k, hget, he, hs, hne, hmd⟩ := ih (i + 1) r hr
        refine ⟨k + 1, by simpa using hget, he, hs, hne, ?_⟩
        rw [hmd]
        congr 1
        omega
      · rw [if_neg h1] at hr
        dsimp only at hr
        by_cases h2 : emb c = []
        · rw [if_pos h2] at hr
          obtain ⟨k, hget, he, hs, hne, hmd⟩ := ih (i + 1) r hr
          refine ⟨k + 1, by simpa using hget, he, hs, hne, ?_⟩
          rw [hmd]
          congr 1
          omega
        · rw [if_neg h2] at hr
          rcases List.mem_cons.mp hr with hhead | htail
          · subst hhead
            exact ⟨0, by simp, rfl, h1, h2, by simp⟩
          · obtain ⟨k, hget, he, hs, hne, hmd⟩ := ih (i + 1) r htail
            refine ⟨k + 1, by simpa using hget, he, hs, hne, ?_⟩
            rw [hmd]
            congr 1
            omega

/-- The stored metadata always resolves `"file"` to the given path when
the caller metadata does not use that key. -/
theorem mkChunkMetadata_file (fp : String) (i : Nat)
    (extra : List (String × MetaVal)) (hex : ∀ p ∈ extra, p.1 ≠ "file") :
    dictLookup (mkChunkMetadata fp i extra) "file" = some (MetaVal.str fp) := by
  unfold mkChunkMetadata
  rw [dictLookup_merge_of_not_key _ _ _ hex]
  simp [dictLookup]

/-- The stored metadata always resolves `"chunk_index"` to the raw
position when the caller metadata does not use that key. -/
theorem mkChunkMetadata_chunk_index (fp : String) (i : Nat)
    (extra : List (String × MetaVal)) (hex : ∀ p ∈ extra, p.1 ≠ "chunk_index") :
    dictLookup (mkChunkMetadata fp i extra) "chunk_index" = some (MetaVal.nat i) := by
  unfold mkChunkMetadata
  rw [dictLookup_merge_of_not_key _ _ _ hex]
  simp [dictLookup]

/-- C3 (amended): every record returned by `index_file` has both `file`
and `chunk_index` present in its metadata; their values are the indexed
file's path and the chunk's zero-based raw position *provided* the
caller-supplied metadata does not itself contain those keys.  The claim
as stated fails: the caller metadata is merged after the defaults, so on
a key collision the caller's value wins (see the counterexample). -/
theorem index_file_metadata_keys (emb : Str → List Int) (fp : String)
    (extra : List (String × MetaVal)) (chunks : List Str) (r : ChunkRecord)
    (hr : r ∈ index_file_chunks emb fp extra chunks) :
    (dictLookup r.metadata "file").isSome ∧
    (dictLookup r.metadata "chunk_index").isSome ∧
    ((∀ p ∈ extra, p.1 ≠ "file") →
      dictLookup r.metadata "file" = some (MetaVal.str fp)) ∧
    ((∀ p ∈ extra, p.1 ≠ "chunk_index") →
      ∃ i, dictLookup r.metadata "chunk_index" = some (MetaVal.nat i) ∧
        chunks[i]? = some r.text) := by
  obtain ⟨k, hget, _, _, _, hmd⟩ := mem_indexChunksAux emb fp extra chunks 0 r hr
  rw [hmd]
  refine ⟨?_, ?_, ?_, ?_⟩
  · exact dictLookup_merge_isSome _ _ _ (by simp [dictLookup])
  · exact dictLookup_merge_isSome _ _ _ (by simp [dictLookup])
  · intro hex
    exact mkChunkMetadata_file fp (0 + k) extra hex
  · intro hex
    exact ⟨0 + k, mkChunkMetadata_chunk_index fp (0 + k) extra hex, by simpa using hget⟩

/-- Witness for the amended C3 at a concrete one-chunk input with no
caller metadata. -/
theorem index_file_metadata_keys_witness :
    dictLookup ({ text := ['a'], embedding := [5],
                  metadata := [("file", MetaVal.str "f"),
                               ("chunk_index", MetaVal.nat 0)] }
        : ChunkRecord).metadata "file" = some (MetaVal.str "f") :=
  (index_file_metadata_keys (fun _ => [5]) "f" [] [['a']]
    { text := ['a'], embedding := [5],
      metadata := [("file", MetaVal.str "f"), ("chunk_index", MetaVal.nat 0)] }
    (by decide)).2.2.1 (by simp)

/-- C3 counterexample: caller metadata containing the key `"file"`
overrides the default, so the stored `file` value is the caller's, not
the indexed file's path. -/
theorem index_file_metadata_override_counterexample :
    ((index_file_chunks (fun _ => [5]) "good.txt" [("file", MetaVal.str "evil")]
        [['a']]).map (fun r => dictLookup r.metadata "file"))
      = [some (MetaVal.str "evil")] ∧
    MetaVal.str "evil" ≠ MetaVal.str "good.txt" := by
  decide

/-- The texts kept by the indexing loop are exactly the chunks whose
embedding came back non-empty, in order, when every chunk is non-empty
after trimming. -/
theorem indexChunksAux_texts (emb : Str → List Int) (fp : String)
    (extra : List (String × MetaVal)) :
    ∀ (chunks : List Str) (i : Nat), (∀ c ∈ chunks, pyStrip c ≠ []) →
      (indexChunksAux emb fp extra i chunks).map ChunkRecord.text
        = chunks.filter (fun c => !(emb c).isEmpty) := by
  intro chunks
  induction chunks with
  | nil =>
      intro i _
      rfl
  | cons c rest ih =>
      intro i hne
      unfold indexChunksAux
      rw [if_neg (hne c (List.mem_cons_self _ _))]
      dsimp only
      by_cases h2 : emb c = []
      · rw [if_pos h2]
        rw [List.filter_cons_of_neg (by simp [h2])]
        exact ih (i + 1) (fun x hx => hne x (List.mem_cons_of_mem _ hx))
      · rw [if_neg h2]
        rw [List.filter_cons_of_pos (by simpa using h2)]
        simpa using ih (i + 1) (fun x hx => hne x (List.mem_cons_of_mem _ hx))

/-- C4: when every chunk of the file is non-empty after trimming, the
records returned by `index_file` are exactly those chunks whose
embedding came back non-empty, in order: a chunk whose embedding fails
is skipped and all others are still returned. -/
theorem index_file_skips_only_failed (emb : Str → List Int) (fp : String)
    (extra : List (String × MetaVal)) (chunks : List Str)
    (hne : ∀ c ∈ chunks, pyStrip c ≠ []) :
    (index_file_chunks emb fp extra chunks).map ChunkRecord.text
      = chunks.filter (fun c => !(emb c).isEmpty) :=
  indexChunksAux_texts emb fp extra chunks 0 hne

/-- Witness for C4: three chunks, embedding fails for the middle one,
and the first and third are still indexed. -/
theorem index_file_skips_only_failed_witness :
    (index_file_chunks (fun c => if c = ['b'] then [] else [3]) "f" []
        [['a'], ['b'], ['c']]).map ChunkRecord.text = [['a'], ['c']] :=
  (index_file_skips_only_failed (fun c => if c = ['b'] then [] else [3]) "f" []
    [['a'], ['b'], ['c']] (by decide)).trans (by decide)

/-- C9: every record returned by `index_file` has a text that is
non-empty after trimming and a non-empty embedding vector. -/
theorem index_file_records_nonempty (emb : Str → List Int) (fp : String)
    (extra : List (String × MetaVal)) (chunks : List Str) (r : ChunkRecord)
    (hr : r ∈ index_file_chunks emb fp extra chunks) :
    pyStrip r.text ≠ [] ∧ r.embedding ≠ [] := by
  obtain ⟨k, _, he, hs, hne, _⟩ := mem_indexChunksAux emb fp extra chunks 0 r hr
  exact ⟨hs, he ▸ hne⟩

/-- Witness for C9 at a concrete one-chunk input. -/
theorem index_file_records_nonempty_witness :
    pyStrip ({ text := ['a'], embedding := [5],
               metadata := [("file", MetaVal.str "f"),
                            ("chunk_index", MetaVal.nat 0)] }
        : ChunkRecord).text ≠ [] ∧
    ({ text := ['a'], embedding := [5],
       metadata := [("file", MetaVal.str "f"),
                    ("chunk_index", MetaVal.nat 0)] }
        : ChunkRecord).embedding ≠ [] :=
  index_file_records_nonempty (fun _ => [5]) "f" [] [['a']]
    { text := ['a'], embedding := [5],
      metadata := [("file", MetaVal.str "f"), ("chunk_index", MetaVal.nat 0)] }
    (by decide)

/-- The `chunk_index` metadata values of a record list, in order. -/
def chunkIndices (rs : List ChunkRecord) : List Nat :=
  rs.filterMap (fun r =>
    match dictLookup r.metadata "chunk_index" with
    | some (MetaVal.nat n) => some n
    | _ => none)

theorem chunkIndices_indexChunksAux (emb : Str → List Int) (fp : String)
    (extra : List (String × MetaVal)) (hex : ∀ p ∈ extra, p.1 ≠ "chunk_index") :
    ∀ (chunks : List Str) (i : Nat),
      List.Chain' (· < ·) (chunkIndices (indexChunksAux emb fp extra i chunks)) ∧
      ∀ n ∈ chunkIndices (indexChunksAux emb fp extra i chunks), i ≤ n := by
  intro chunks
  induction chunks with
  | nil =>
      intro i
      exact ⟨List.chain'_nil, by simp [indexChunksAux, chunkIndices]⟩
  | cons c rest ih =>
      intro i
      unfold indexChunksAux
      by_cases h1 : pyStrip c = []
      · rw [if_pos h1]
        obtain ⟨hch, hbd⟩ := ih (i + 1)
        exact ⟨hch, fun n hn => le_trans (by omega) (hbd n hn)⟩
      · rw [if_neg h1]
        dsimp only
        by_cases h2 : emb c = []
        · rw [if_pos h2]
          obtain ⟨hch, hbd⟩ := ih (i + 1)
          exact ⟨hch, fun n hn => le_trans (by omega) (hbd n hn)⟩
        · rw [if_neg h2]
          obtain ⟨hch, hbd⟩ := ih (i + 1)
          have hcons : chunkIndices
              ({ text := c, embedding := emb c,
                 metadata := mkChunkMetadata fp i extra } ::
               indexChunksAux emb fp extra (i + 1) rest)
              = i :: chunkIndices (indexChunksAux emb fp extra (i + 1) rest) := by
            unfold chunkIndices
            rw [List.filterMap_cons]
            dsimp only
            rw [mkChunkMetadata_chunk_index fp i extra hex]
          rw [hcons]
          constructor
          · rw [List.chain'_cons']
            refine ⟨fun y hy => ?_, hch⟩
            have : y ∈ chunkIndices (indexChunksAux emb fp extra (i + 1) rest) :=
              List.mem_of_mem_head? hy
            have := hbd y this
            omega
          · intro n hn
            rcases List.mem_cons.mp hn with h | h
            · omega
            · have := hbd n h
              omega

/-- C10 (amended): provided the caller-supplied metadata does not
contain the key `chunk_index`, the `chunk_index` values of the records
`index_file` returns are strictly increasing, and they are not
necessarily contiguous: skipping a chunk (here, one whose embedding
fails) leaves a gap, as in the `[0, 2]` instance.  Without that proviso
the claim fails, because caller metadata overrides `chunk_index` (see
the counterexample). -/
theorem index_file_chunk_indices_strict_mono :
    (∀ (emb : Str → List Int) (fp : String) (extra : List (String × MetaVal))
        (chunks : List Str), (∀ p ∈ extra, p.1 ≠ "chunk_index") →
        List.Chain' (· < ·) (chunkIndices (index_file_chunks emb fp extra chunks))) ∧
    chunkIndices (index_file_chunks (fun c => if c = ['b'] then [] else [7]) "f" []
        [['a'], ['b'], ['c']]) = [0, 2] := by
  constructor
  · intro emb fp extra chunks hex
    exact (chunkIndices_indexChunksAux emb fp extra hex chunks 0).1
  · decide

/-- Witness for the amended C10 at a concrete two-chunk input. -/
theorem index_file_chunk_indices_strict_mono_witness :
    List.Chain' (· < ·) (chunkIndices (index_file_chunks (fun _ => [7]) "f" []
        [['a'], ['b']])) :=
  index_file_chunk_indices_strict_mono.1 (fun _ => [7]) "f" [] [['a'], ['b']]
    (by simp)

/-- C10 counterexample: caller metadata containing `chunk_index`
overrides the per-chunk default, so two records share the value 0 and
the stored indices are not strictly increasing. -/
theorem index_file_chunk_indices_override_counterexample :
    ¬ List.Chain' (· < ·) (chunkIndices (index_file_chunks (fun _ => [7]) "f"
        [("chunk_index", MetaVal.nat 0)] [['a'], ['b']])) := by
  have h : chunkIndices (index_file_chunks (fun _ => [7]) "f"
      [("chunk_index", MetaVal.nat 0)] [['a'], ['b']]) = [0, 0] := by decide
  rw [h]
  simp [List.chain'_cons]

/-! ## Retriever: `find_poems_by_translator` (src/simple_translator.py, lines 26-34) -/

/-- Python `x in s` on strings: `pat` occurs as a contiguous substring. -/
def infixOf (pat : Str) : Str → Bool
  | [] => pat.isEmpty
  | c :: rest => pat.isPrefixOf (c :: rest) || infixOf pat rest

/-- The character mapping of Python `str.lower()`, on the Basic Latin
and Cyrillic ranges this program's corpus uses: uppercase Latin
`A`-`Z` and uppercase Cyrillic `А`-`Я` map 32 code points up, the
Cyrillic extensions `Ѐ`-`Џ` (which include `Ё`) map 80 code points up,
exactly as Unicode simple lowercasing does; every other character in
these ranges is not uppercase and maps to itself, as in Python. -/
def pyToLower (c : Char) : Char :=
  if 'A' ≤ c ∧ c ≤ 'Z' then Char.ofNat (c.toNat + 32)
  else if 'А' ≤ c ∧ c ≤ 'Я' then Char.ofNat (c.toNat + 32)
  else if 'Ѐ' ≤ c ∧ c ≤ 'Џ' then Char.ofNat (c.toNat + 80)
  else c

/-- Python `s.lower()`, character by character. -/
def strLower (s : Str) : Str := s.map pyToLower

/-- `find_poems_by_translator(translator_name, index)`: the `for` loop
appending every chunk whose lowercased text contains the lowercased
translator name. -/
def find_poems_by_translator (translator_name : Str) (index : List ChunkRecord) :
    List ChunkRecord :=
  let translator_lower := strLower translator_name
  index.foldl
    (fun found chunk =>
      if infixOf translator_lower (strLower chunk.text) then found ++ [chunk]
      else found) []

/-- A fold that conditionally appends `f x` is a filter-then-map. -/
theorem foldl_ite_append_eq_filter_map {α β : Type} (p : α → Bool) (f : α → β) :
    ∀ (l : List α) (acc : List β),
      l.foldl (fun acc x => if p x then acc ++ [f x] else acc) acc
        = acc ++ (l.filter p).map f := by
  intro l
  induction l with
  | nil => simp
  | cons x rest ih =>
      intro acc
      rw [List.foldl_cons]
      by_cases hx : p x
      · rw [if_pos hx, ih, List.filter_cons_of_pos hx]
        simp
      · rw [if_neg hx, ih, List.filter_cons_of_neg (by simpa using hx)]

/-- C5: `find_poems_by_translator` returns exactly the subsequence of
index records whose lowercased text contains the lowercased attribute
value, in index order, and the result only depends on the lowercased
attribute value, so it is invariant under changing its case. -/
theorem find_poems_by_translator_spec (name : Str) (index : List ChunkRecord) :
    find_poems_by_translator name index
      = index.filter (fun c => infixOf (strLower name) (strLower c.text)) ∧
    ∀ name2 : Str, strLower name = strLower name2 →
      find_poems_by_translator name index = find_poems_by_translator name2 index := by
  constructor
  · unfold find_poems_by_translator
    dsimp only
    have h := foldl_ite_append_eq_filter_map
      (fun c : ChunkRecord => infixOf (strLower name) (strLower c.text)) id index []
    simpa using h
  · intro name2 h
    unfold find_poems_by_translator
    rw [h]

/-- Witness for C5: searching `"Smith"` and `"SMITH"` yields the same
records, searching `"Маршак"` and `"МАРШАК"` yields the same records,
and the all-uppercase Cyrillic query does select the chunk whose text
contains `"Маршак"`. -/
theorem find_poems_by_translator_spec_witness :
    find_poems_by_translator "Smith".toList
        [{ text := "Переводчик: John Smith".toList, embedding := [1], metadata := [] }]
      = find_poems_by_translator "SMITH".toList
        [{ text := "Переводчик: John Smith".toList, embedding := [1], metadata := [] }] ∧
    find_poems_by_translator "Маршак".toList
        [{ text := "Переводчик: Маршак".toList, embedding := [2], metadata := [] }]
      = find_poems_by_translator "МАРШАК".toList
        [{ text := "Переводчик: Маршак".toList, embedding := [2], metadata := [] }] ∧
    find_poems_by_translator "МАРШАК".toList
        [{ text := "Переводчик: Маршак".toList, embedding := [2], metadata := [] }]
      = [{ text := "Переводчик: Маршак".toList, embedding := [2], metadata := [] }] :=
  ⟨(find_poems_by_translator_spec "Smith".toList
      [{ text := "Переводчик: John Smith".toList, embedding := [1], metadata := [] }]).2
      "SMITH".toList (by decide),
   (find_poems_by_translator_spec "Маршак".toList
      [{ text := "Переводчик: Маршак".toList, embedding := [2], metadata := [] }]).2
      "МАРШАК".toList (by decide),
   ((find_poems_by_translator_spec "МАРШАК".toList
      [{ text := "Переводчик: Маршак".toList, embedding := [2], metadata := [] }]).1).trans
      (by decide)⟩

/-! ## Document Normalizer: `process_json_file` (src/rag_index.py, lines 67-115)

After the JSON parse (external I/O), the function builds `text_parts` by
appending one labelled block per recognized key that is present, in the
fixed order of lines 81-107, and joins them with `"\n"` (line 110).  The
parsed document is modelled as a record of optional fields; `devices`
may be a list (joined with `", "`) or a plain string (lines 100-104). -/

/-- Python `sep.join(parts)`. -/
def charJoin (sep : Str) : List Str → Str
  | [] => []
  | [x] => x
  | x :: xs => x ++ sep ++ charJoin sep xs

/-- A parsed structured document: any subset of the recognized keys. -/
structure StructuredDoc where
  title_original : Option Str := none
  title_translation : Option Str := none
  author : Option Str := none
  translator : Option Str := none
  original : Option Str := none
  translation : Option Str := none
  rhyme_scheme : Option Str := none
  meter : Option Str := none
  devices : Option (List Str ⊕ Str) := none
  comment : Option Str := none

/-- `devices_str` (lines 100-104): join a list with `", "`, stringify otherwise. -/
def devicesStr : List Str ⊕ Str → Str
  | Sum.inl l => charJoin ", ".toList l
  | Sum.inr s => s

/-- The rendered blocks of lines 81-107, in source order, `none` for
absent keys. -/
def docFieldParts (d : StructuredDoc) : List (Option Str) :=
  [ d.title_original.map (fun v => "Название (оригинал): ".toList ++ v),
    d.title_translation.map (fun v => "Название (перевод): ".toList ++ v),
    d.author.map (fun v => "Автор: ".toList ++ v),
    d.translator.map (fun v => "Переводчик: ".toList ++ v),
    d.original.map (fun v => "\nОригинальный текст:\n".toList ++ v),
    d.translation.map (fun v => "\nПеревод:\n".toList ++ v),
    d.rhyme_scheme.map (fun v => "\nСхема рифмовки: ".toList ++ v),
    d.meter.map (fun v => "Размер: ".toList ++ v),
    d.devices.map (fun v => "Художественные приемы: ".toList ++ devicesStr v),
    d.comment.map (fun v => "\nКомментарий: ".toList ++ v) ]

/-- One `if key in data: text_parts.append(...)` step. -/
def pushOpt (acc : List Str) (o : Option Str) : List Str :=
  match o with
  | some v => acc ++ [v]
  | none => acc

/-- `text_parts` after the if-chain of lines 79-107. -/
def docTextParts (d : StructuredDoc) : List Str :=
  (docFieldParts d).foldl pushOpt []

/-- `full_text = "\n".join(text_parts)` (line 110). -/
def normalizeDoc (d : StructuredDoc) : Str :=
  charJoin ['\n'] (docTextParts d)

/-- Modelled from the spec's words (§4.2): render exactly the present
fields, in the fixed field order, each with its label, joined with
newline separators and with nothing emitted for absent fields. -/
def specNormalizeDoc (d : StructuredDoc) : Str :=
  charJoin ['\n'] ((docFieldParts d).filterMap id)

theorem foldl_pushOpt_eq_filterMap :
    ∀ (l : List (Option Str)) (acc : List Str),
      l.foldl pushOpt acc = acc ++ l.filterMap id := by
  intro l
  induction l with
  | nil => simp
  | cons o rest ih =>
      intro acc
      cases o with
      | none => simpa [pushOpt] using ih acc
      | some v => simp [pushOpt, ih]

/-- C6: normalization renders exactly the present fields, labelled, in
the fixed source order, joined by newlines (no placeholder for absent
fields); in particular the document with author `X`, original `line1`
and translation `строка1` normalizes to `Автор: X`, then a
blank-line-preceded original block, then a blank-line-preceded
translation block, in that order. -/
theorem normalizeDoc_spec :
    (∀ d : StructuredDoc, normalizeDoc d = specNormalizeDoc d) ∧
    normalizeDoc { author := some "X".toList, original := some "line1".toList,
                   translation := some "строка1".toList }
      = "Автор: X\n\nОригинальный текст:\nline1\n\nПеревод:\nстрока1".toList := by
  constructor
  · intro d
    unfold normalizeDoc specNormalizeDoc docTextParts
    rw [foldl_pushOpt_eq_filterMap]
    rfl
  · decide

/-! ## Prompt Composer: `translate`'s prompt construction
(src/simple_translator.py, lines 44-80)

Lines 44-48 filter the retrieved chunks to those whose text contains
both section markers; lines 50-69 build the style-conditioned template
around the examples (joined with `"\n\n---\n\n"`), lines 70-80 the
reduced template used when no example qualifies.  Both templates start
with the same six instruction lines (the rhyme constraints) and end with
the same output instruction around the subject poem. -/

/-- The original-text section marker of line 47. -/
def origMarker : Str := "Оригинальный текст:".toList

/-- The translation section marker of line 47. -/
def translMarker : Str := "Перевод:".toList

/-- The `examples` accumulation loop of lines 44-48. -/
def collectExamples (translator_poems : List ChunkRecord) : List Str :=
  translator_poems.foldl
    (fun examples chunk =>
      if infixOf origMarker chunk.text && infixOf translMarker chunk.text then
        examples ++ [chunk.text]
      else examples) []

/-- The six instruction lines common to both templates (lines 52-57 and
71-76), with the blank line that follows them. -/
def promptHeader : Str :=
  ("Ты профессиональный переводчик детских стихотворений с английского на русский.\n"
    ++ "⚠️ Задача: перевести это стихотворение **полностью рифмованно** по всей длине.\n"
    ++ "⚠️ Каждая пара строк должна строго рифмоваться (AABB или ABAB). \n"
    ++ "⚠️ Смысл можно слегка адаптировать ради рифмы, но смысл каждой строки должен быть понятен.\n"
    ++ "⚠️ Сначала **определи все рифмы для всего стихотворения**, а потом составь строки.\n"
    ++ "⚠️ Весь текст должен быть рифмованным, без исключений, без лишних слов.\n\n").toList

/-- The separator the examples are joined with (line 51). -/
def examplesSep : Str := "\n\n---\n\n".toList

/-- The closing output instruction common to both templates (lines 69 and 80). -/
def promptTail : Str :=
  "\n\nТвой перевод (только текст, полностью рифмованно, без комментариев):".toList

/-- Text before the style label in the examples introduction (line 59). -/
def examplesIntroPre : Str := "Примеры переводов ".toList

/-- Text after the style label in the examples introduction (lines 59-60). -/
def examplesIntroPost : Str :=
  " служат как вдохновение, не копируй их дословно:\n\n".toList

/-- The block between the examples and the poem (lines 62-66). -/
def translateInstruction : Str :=
  ("\n\n---\n\nПереведи это стихотворение строго рифмованно, соблюдая схему рифмы, "
    ++ "ритм и музыкальность. Сначала придумай рифмы для всего стихотворения, "
    ++ "потом составь строки:\n\n").toList

/-- The prompt `translate` builds (lines 44-80): style-conditioned when
at least one example qualifies, reduced otherwise. -/
def buildPrompt (poem_text translator_style : Str)
    (translator_poems : List ChunkRecord) : Str :=
  let examples := collectExamples translator_poems
  if examples = [] then promptHeader ++ poem_text ++ promptTail
  else
    promptHeader ++ examplesIntroPre ++ translator_style ++ examplesIntroPost
      ++ charJoin examplesSep examples ++ translateInstruction
      ++ poem_text ++ promptTail

/-- C7: the examples used are exactly the texts of the chunks containing
both section markers; the style template (with those examples joined by
the fixed separator) is used iff at least one chunk qualifies, otherwise
the reduced template, which shares the same rhyme-constraint header and
closing instruction; in both cases the prompt embeds the subject text. -/
theorem buildPrompt_spec (poem style : Str) (chunks : List ChunkRecord) :
    collectExamples chunks
      = (chunks.filter
          (fun c => infixOf origMarker c.text && infixOf translMarker c.text)).map
          ChunkRecord.text ∧
    (collectExamples chunks ≠ [] →
      buildPrompt poem style chunks
        = promptHeader ++ examplesIntroPre ++ style ++ examplesIntroPost
            ++ charJoin examplesSep (collectExamples chunks) ++ translateInstruction
            ++ poem ++ promptTail) ∧
    (collectExamples chunks = [] →
      buildPrompt poem style chunks = promptHeader ++ poem ++ promptTail) ∧
    ∃ l r, buildPrompt poem style chunks = l ++ poem ++ r := by
  refine ⟨?_, ?_, ?_, ?_⟩
  · unfold collectExamples
    have h := foldl_ite_append_eq_filter_map
      (fun c : ChunkRecord => infixOf origMarker c.text && infixOf translMarker c.text)
      ChunkRecord.text chunks []
    simpa using h
  · intro h
    unfold buildPrompt
    dsimp only
    rw [if_neg h]
  · intro h
    unfold buildPrompt
    dsimp only
    rw [if_pos h]
  · by_cases h : collectExamples chunks = []
    · refine ⟨promptHeader, promptTail, ?_⟩
      unfold buildPrompt
      dsimp only
      rw [if_pos h]
    · refine ⟨promptHeader ++ examplesIntroPre ++ style ++ examplesIntroPost
        ++ charJoin examplesSep (collectExamples chunks) ++ translateInstruction,
        promptTail, ?_⟩
      unfold buildPrompt
      dsimp only
      rw [if_neg h]

/-- Witness for C7: one qualifying exemplar chunk produces the
style-conditioned template around it. -/
theorem buildPrompt_spec_witness :
    buildPrompt "Roses are red".toList "Маршак".toList
        [{ text := origMarker ++ translMarker, embedding := [1], metadata := [] }]
      = promptHeader ++ examplesIntroPre ++ "Маршак".toList ++ examplesIntroPost
          ++ charJoin examplesSep (collectExamples
              [{ text := origMarker ++ translMarker, embedding := [1], metadata := [] }])
          ++ translateInstruction ++ "Roses are red".toList ++ promptTail :=
  (buildPrompt_spec "Roses are red".toList "Маршак".toList
    [{ text := origMarker ++ translMarker, embedding := [1], metadata := [] }]).2.1
    (by decide)

/-! ## Index Store: `save_index` (src/rag_index.py, lines 185-195) and
`load_index` (src/simple_translator.py, lines 16-23)

Both sides build the same path `os.path.join(INDEX_DIR, f"{name}.pkl")`.
The filesystem is modelled as a mapping from paths to stored chunk
sequences, with the `pickle` serialization of the chunk list treated as
a faithful external encoding (writing a file overwrites any previous
content at that path; `load` of an absent path returns `[]`, as lines
19-21 do). -/

/-- The filesystem visible to the store: path to stored chunk sequence. -/
abbrev FileStore := List (String × List ChunkRecord)

/-- `INDEX_DIR = "rag_index"` (both modules). -/
def INDEX_DIR : String := "rag_index"

/-- `os.path.join(INDEX_DIR, f"{index_name}.pkl")` (lines 189 and 18). -/
def indexPathOf (index_name : String) : String :=
  INDEX_DIR ++ "/" ++ index_name ++ ".pkl"

/-- `save_index(chunks, index_name)`: write (overwriting) the serialized
chunk list at the index's path. -/
def save_index (fs : FileStore) (chunks : List ChunkRecord)
    (index_name : String) : FileStore :=
  dictInsert fs (indexPathOf index_name) chunks

/-- `load_index(index_name)`: read the chunk list back, `[]` when the
file does not exist. -/
def load_index (fs : FileStore) (index_name : String) : List ChunkRecord :=
  match dictLookup fs (indexPathOf index_name) with
  | none => []
  | some chunks => chunks

/-- C8: loading an index right after saving it under the same name
returns exactly the saved chunk sequence, whatever was stored before. -/
theorem load_index_save_index (fs : FileStore) (chunks : List ChunkRecord)
    (index_name : String) :
    load_index (save_index fs chunks index_name) index_name = chunks := by
  unfold load_index save_index
  rw [dictLookup_insert_self]

end PT
